import Mathlib

/-!
Verification development for the `github-ci-status` repository.

The JavaScript sources (`src/index.js`, `src/lib/github-utils.js`) are
shallowly embedded below.  JS strings are modelled as Lean `String`
(a sequence of code points); JS string primitives are modelled by small
executable helpers over `String.data`.  JS objects/mappings are modelled
as association lists with unique keys, `Object.entries` order being the
list order.  Fallible code (`throw`) is modelled with `Except JsError`,
where `JsError` carries the `name` and `message` of the thrown JS `Error`.
`Array.prototype.sort` with a user comparator is modelled as a
comparator-driven insertion sort in the `Except` monad, so that a
comparator that throws (as the one in `getRemoteUrls` does on duplicate
entries) propagates its error.
-/

namespace GithubCiStatus

/-- Model of a JavaScript `Error` object: its `name` and `message`. -/
structure JsError where
  name : String
  message : String
deriving DecidableEq, Repr

/-! ### JS string and array primitives -/

/-- Model of `String.prototype.startsWith`. -/
def strStartsWith (s pre : String) : Bool :=
  pre.data.isPrefixOf s.data

/-- Model of `String.prototype.endsWith`. -/
def strEndsWith (s post : String) : Bool :=
  post.data.isSuffixOf s.data

/-- Drop the first `n` characters (as in `String.prototype.slice(n)`). -/
def strDrop (s : String) (n : Nat) : String :=
  String.mk (s.data.drop n)

/-- Drop the last `n` characters (as in `String.prototype.slice(0, -n)`). -/
def strDropRight (s : String) (n : Nat) : String :=
  String.mk (s.data.take (s.data.length - n))

/-- Model of `String.prototype.padEnd(n)`: pad with spaces up to length `n`. -/
def padEnd (s : String) (n : Nat) : String :=
  s ++ String.mk (List.replicate (n - s.data.length) ' ')

/-- Split a list of characters at every occurrence of `sep`; models
`String.prototype.split` with a single-character separator. -/
def splitChars (sep : Char) : List Char → List (List Char)
  | [] => [[]]
  | c :: rest =>
    match splitChars sep rest with
    | [] => [[]]
    | g :: gs => if c = sep then [] :: g :: gs else (c :: g) :: gs

/-- Model of `String.prototype.split` with a one-character separator. -/
def jsSplit (sep : Char) (s : String) : List String :=
  (splitChars sep s.data).map String.mk

/-- Model of `Array.prototype.indexOf`: index of the first occurrence,
`-1` when absent. -/
def jsIndexOf (l : List String) (x : String) : Int :=
  match l with
  | [] => -1
  | a :: rest =>
    if a = x then 0
    else
      let r := jsIndexOf rest x
      if r = -1 then -1 else r + 1

/-- Model of a JS array access `l[i]` with a possibly negative index:
`none` models `undefined`. -/
def jsArrayGet (l : List String) (i : Int) : Option String :=
  if 0 ≤ i then l.get? i.toNat else none

/-- Model of `x || ''` applied to a possibly-`undefined` string `x`
(`none` models `undefined`; the empty string is falsy). -/
def jsOrEmpty (x : Option String) : String :=
  match x with
  | none => ""
  | some s => if s = "" then "" else s

/-- Truthiness of a possibly-absent string field (`undefined`/`null` is
modelled by `none`; the empty string is falsy). -/
def isTruthyStr (x : Option String) : Bool :=
  match x with
  | none => false
  | some s => s ≠ ""

/-- Lexicographic comparison of character sequences; models the JS `<`
operator on strings (computably, unlike the `String` order instance). -/
def charListLt : List Char → List Char → Bool
  | [], [] => false
  | [], _ :: _ => true
  | _ :: _, [] => false
  | a :: as, b :: bs =>
    if a < b then true
    else if b < a then false
    else charListLt as bs

/-- Model of `new Set(l)` followed by iteration: keep the first occurrence
of every element, preserving insertion order. -/
def jsSetOfList {α : Type} [DecidableEq α] : List α → List α
  | [] => []
  | x :: xs => x :: (jsSetOfList xs).filter (· ≠ x)

/-! ### Embedding of `src/index.js` -/

/-- One status record (a `statuses` object of the CI Status API): its
`state`, `context`, and optional `target_url` fields. -/
structure Status where
  state : String
  context : String
  target_url : Option String
deriving DecidableEq, Repr

/-- The `stateBySeverity` array of `src/index.js`: states ordered from
lowest to highest severity. -/
def stateBySeverity : List String :=
  ["neutral", "success", "pending", "cancelled", "timed_out",
   "action_required", "failure", "error"]

/-- The `getState` function of `src/index.js`: reduce to the maximal
severity index (starting from `-1`) and index back into
`stateBySeverity`, defaulting to the empty string. -/
def getState (statuses : List Status) : String :=
  let bestSeverity := statuses.foldl
    (fun maxSeverity status =>
      max (jsIndexOf stateBySeverity status.state) maxSeverity) (-1)
  jsOrEmpty (jsArrayGet stateBySeverity bestSeverity)

/-- The `stateToExitCode` function of `src/index.js`. -/
def stateToExitCode (state : String) : Nat :=
  if state = "neutral" ∨ state = "success" then 0
  else if state = "action_required" ∨ state = "cancelled" ∨ state = "error"
      ∨ state = "failure" ∨ state = "timed_out" then 1
  else if state = "pending" then 2
  else 3

/-- The `getStateMarker` function of `src/index.js`: state glyph with
optional ANSI coloring. -/
def getStateMarker (state : String) (useColor : Bool) : String :=
  let colorize (string : String) (code : String) : String :=
    if useColor then "\u001B[" ++ code ++ "m" ++ string ++ "\u001B[39m"
    else string
  if state = "success" then colorize "✔︎" "32"
  else if state = "action_required" ∨ state = "cancelled" ∨ state = "error"
      ∨ state = "failure" ∨ state = "timed_out" then colorize "✖︎" "31"
  else if state = "neutral" then colorize "◦" "30"
  else if state = "pending" then colorize "●" "33"
  else ""

/-- The `formatStatus` function of `src/index.js`: one line for one
status record. -/
def formatStatus (status : Status) (contextWidth : Nat) (useColor : Bool) :
    String :=
  let stateMarker := getStateMarker status.state useColor
  let context := padEnd status.context contextWidth
  let targetUrl :=
    if isTruthyStr status.target_url then "\t" ++ status.target_url.getD ""
    else ""
  stateMarker ++ "\t" ++ context ++ targetUrl

/-- The context column width computed by `formatStatuses` in
`src/index.js`: `0` when no record has a (truthy) `target_url`, otherwise
the reduce-with-`Math.max` of the context lengths starting from `0`. -/
def contextWidth (statuses : List Status) : Nat :=
  if ¬ statuses.any (fun status => isTruthyStr status.target_url) then 0
  else statuses.foldl (fun m status => max m status.context.data.length) 0

/-- The `formatStatuses` function of `src/index.js`. -/
def formatStatuses (statuses : List Status) (useColor : Bool) : String :=
  String.intercalate "\n"
    (statuses.map (fun status =>
      formatStatus status (contextWidth statuses) useColor))

/-! ### Embedding of `src/lib/github-utils.js` -/

/-- Result of the external `parseGitUrl` collaborator: a URL object with
its `hostname` and `pathname`. -/
structure ParsedUrl where
  hostname : String
  pathname : String
deriving DecidableEq, Repr

/-- One remote-url config entry, as built by `getRemoteUrls`. -/
structure RemoteEntry where
  name : String
  isPush : Bool
  url : String
deriving DecidableEq, Repr

/-- Characters matched by an (unflagged) `.` in a JS regular expression:
everything except the four line terminators. -/
def isRegexDotChar (c : Char) : Bool :=
  c ≠ Char.ofNat 10 && c ≠ Char.ofNat 13 &&
  c ≠ Char.ofNat 0x2028 && c ≠ Char.ofNat 0x2029

/-- Match of the regular expression of `getRemoteUrls`,
`^remote\.(.*)\.((?:push)?url)$`, against a config key: the captured
remote name and whether the key is a `pushurl` key.  A key of the shape
`remote.<name>.pushurl` cannot also match with suffix `url` (the
character four places before the end is `h`, not `.`), so the greedy
match is the unique decomposition. -/
def parseRemoteKey (key : String) : Option (String × Bool) :=
  if strStartsWith key "remote." then
    let rest := strDrop key 7
    if strEndsWith rest ".pushurl" then
      let name := strDropRight rest 8
      if name.data.all isRegexDotChar then some (name, true) else none
    else if strEndsWith rest ".url" then
      let name := strDropRight rest 4
      if name.data.all isRegexDotChar then some (name, false) else none
    else none
  else none

/-- The map-and-filter step of `getRemoteUrls`: each config entry whose
key matches the remote-url pattern becomes a `RemoteEntry`. -/
def extractRemotes (config : List (String × String)) : List RemoteEntry :=
  config.filterMap (fun kv =>
    (parseRemoteKey kv.1).map (fun np => ⟨np.1, np.2, kv.2⟩))

/-- The `originNamesInLookupOrder` array of `src/lib/github-utils.js`. -/
def originNamesInLookupOrder : List String :=
  ["upstream", "github", "origin"]

/-- The error thrown by the sort comparator of `getRemoteUrls` on a
duplicate `(name, isPush)` pair. -/
def dupConfigError (remote : RemoteEntry) : JsError :=
  ⟨"Error",
   "Duplicate config \x27remote." ++ remote.name ++ "."
     ++ (if remote.isPush then "push" else "") ++ "url\x27"⟩

/-- The sort comparator of `getRemoteUrls`.  The JS comparator returns a
number; only its sign matters, modelled as an `Ordering`.  On a full tie
(same name and same `isPush`) the comparator throws, modelled as
`Except.error`. -/
def remoteCompareE (branchRemote : Option String)
    (remote1 remote2 : RemoteEntry) : Except JsError Ordering :=
  if (some remote1.name = branchRemote) ≠ (some remote2.name = branchRemote)
  then .ok (if some remote1.name = branchRemote then .lt else .gt)
  else if jsIndexOf originNamesInLookupOrder remote1.name
      ≠ jsIndexOf originNamesInLookupOrder remote2.name then
    .ok (if jsIndexOf originNamesInLookupOrder remote1.name = -1 then .gt
      else if jsIndexOf originNamesInLookupOrder remote2.name = -1 then .lt
      else if jsIndexOf originNamesInLookupOrder remote1.name
          < jsIndexOf originNamesInLookupOrder remote2.name then .lt
      else .gt)
  else if remote1.name ≠ remote2.name then
    .ok (if charListLt remote1.name.data remote2.name.data then .lt else .gt)
  else if remote1.isPush ≠ remote2.isPush then
    .ok (if remote1.isPush then .lt else .gt)
  else .error (dupConfigError remote1)

/-- Insert `x` into `l` at the first position where the comparator says
`x` sorts before the element there; a comparator error propagates. -/
def orderedInsertE {α : Type} (cmp : α → α → Except JsError Ordering)
    (x : α) : List α → Except JsError (List α)
  | [] => .ok [x]
  | y :: ys =>
    match cmp x y with
    | .error e => .error e
    | .ok c =>
      if c = .lt then .ok (x :: y :: ys)
      else
        match orderedInsertE cmp x ys with
        | .error e => .error e
        | .ok rest => .ok (y :: rest)

/-- Comparator-driven insertion sort in the `Except` monad; models
`Array.prototype.sort` with a comparator that can throw. -/
def insertionSortE {α : Type} (cmp : α → α → Except JsError Ordering) :
    List α → Except JsError (List α)
  | [] => .ok []
  | x :: xs =>
    match insertionSortE cmp xs with
    | .error e => .error e
    | .ok s => orderedInsertE cmp x s

/-- The extraction and sort of `getRemoteUrls`, producing the ordered
`RemoteEntry` list (or the duplicate-config error). -/
def getRemoteEntriesE (config : List (String × String))
    (branchRemote : Option String) : Except JsError (List RemoteEntry) :=
  insertionSortE (remoteCompareE branchRemote) (extractRemotes config)

/-- The `getRemoteUrls` function of `src/lib/github-utils.js`: the urls
of the sorted remote entries. -/
def getRemoteUrlsE (config : List (String × String))
    (branchRemote : Option String) : Except JsError (List String) :=
  (getRemoteEntriesE config branchRemote).map (List.map RemoteEntry.url)

/-- The hostname filter of `getGitHubUrls`: exactly `github.com`,
exactly the `GITHUB_HOST` environment value (`env`, `none` when the
variable is unset), or a subdomain of `github.com`. -/
def hostOk (env : Option String) (hostname : String) : Bool :=
  hostname = "github.com" || some hostname = env
    || strEndsWith hostname ".github.com"

/-- The per-url body of the map in `getGitHubUrls`: parse the remote url
with the external `parseGitUrl` collaborator (`parse`; `none` models a
parse failure, which the code catches and logs) and keep the parse
result only when its hostname passes the filter. -/
def candOf (env : Option String) (parse : String → Option ParsedUrl)
    (remoteUrl : String) : Option ParsedUrl :=
  match parse remoteUrl with
  | some parsed => if hostOk env parsed.hostname then some parsed else none
  | none => none

/-- The `getGitHubUrls` function of `src/lib/github-utils.js`.  The JS
code wraps the filtered list in `new Set(...)`, whose elements are the
freshly parsed URL objects; object identity is modelled by tagging each
parse result with the index of the remote url it came from, and the
`Set` by first-occurrence deduplication on the tagged values. -/
def getGitHubUrlsE (config : List (String × String))
    (branchRemote : Option String) (env : Option String)
    (parse : String → Option ParsedUrl) :
    Except JsError (List (Nat × ParsedUrl)) := do
  let urls ← getRemoteUrlsE config branchRemote
  .ok (jsSetOfList ((urls.enum).filterMap (fun iu =>
    (candOf env parse iu.2).map (fun parsed => (iu.1, parsed)))))

/-- The plain filtered candidate list, with no uniqueness container at
all: one parse result per remote url that parses and passes the host
filter, in order.  This is the spec side of the design note on
`Set`-based deduplication (spec §4.1 and §9). -/
def gitHubUrlsPlain (config : List (String × String))
    (branchRemote : Option String) (env : Option String)
    (parse : String → Option ParsedUrl) : Except JsError (List ParsedUrl) := do
  let urls ← getRemoteUrlsE config branchRemote
  .ok (urls.filterMap (candOf env parse))

/-- Strip one trailing `.git` from a repo path segment (lines 136-139 of
`src/lib/github-utils.js`). -/
def stripGit (s : String) : String :=
  if strEndsWith s ".git" then strDropRight s 4 else s

/-- The per-url body of the loop of `getProjectName` (lines 125-147 of
`src/lib/github-utils.js`): split the pathname on `/`, require exactly
three parts with the first empty and the others non-empty, strip one
trailing `.git` from the repo part and require it non-empty. -/
def projectFromPath (pathname : String) : Option (String × String) :=
  match jsSplit '/' pathname with
  | [a, b, c] =>
    if a ≠ "" ∨ b = "" ∨ c = "" then none
    else
      let repo := stripGit c
      if repo = "" then none else some (b, repo)
  | _ => none

/-- The loop and failure case of `getProjectName`: the first candidate
URL whose pathname has the required shape yields the project pair;
otherwise the (generic) error of lines 149-150 is thrown. -/
def findProject (urls : List ParsedUrl) : Except JsError (String × String) :=
  match urls.findSome? (fun u => projectFromPath u.pathname) with
  | some p => .ok p
  | none => .error ⟨"Error",
      "Unable to determine GitHub project name: "
        ++ "No GitHub remote URLs recognized."⟩

/-- The `getProjectName` function of `src/lib/github-utils.js`,
parameterized by the results of the external collaborators: the current
branch name (`none` when `getBranch` failed), the local config snapshot,
the `GITHUB_HOST` environment value, and `parseGitUrl`. -/
def getProjectNameE (branch : Option String)
    (config : List (String × String)) (env : Option String)
    (parse : String → Option ParsedUrl) : Except JsError (String × String) := do
  let branchRemote := branch.bind
    (fun b => config.lookup ("branch." ++ b ++ ".remote"))
  let cands ← getGitHubUrlsE config branchRemote env parse
  findProject (cands.map Prod.snd)

/-! ### Spec-side definitions and sort keys

`specBefore` transcribes the comparator as the specification words it:
the branch remote first, then the fixed preference list, then
lexicographic by name, then push url before fetch url.  `remoteKey` maps
an entry to a lexicographic sort key; it is the bridge used to reason
about the comparator. -/

/-- Preference rank from the spec: `upstream`, `github`, `origin` in that
order before all unlisted names. -/
def rankSpec (name : String) : Nat :=
  if name = "upstream" then 0
  else if name = "github" then 1
  else if name = "origin" then 2
  else 3

/-- The strict entry order as the specification describes it: an entry
named like the current branch remote sorts before all others; otherwise
the preference-list rank decides; remaining ties break lexicographically
ascending by name; for equal names the push url entry sorts first. -/
def specBefore (branchRemoteName : Option String)
    (r1 r2 : RemoteEntry) : Bool :=
  if (some r1.name = branchRemoteName) ≠ (some r2.name = branchRemoteName)
  then some r1.name = branchRemoteName
  else if rankSpec r1.name ≠ rankSpec r2.name
  then rankSpec r1.name < rankSpec r2.name
  else if r1.name ≠ r2.name then r1.name < r2.name
  else r1.isPush && !r2.isPush

/-- Lexicographic sort key type for remote entries. -/
abbrev RemoteKey : Type := Nat ×ₗ (Nat ×ₗ (String ×ₗ Nat))

/-- First key component: `0` when the entry name is the branch remote. -/
def branchFlag (branchRemote : Option String) (name : String) : Nat :=
  if some name = branchRemote then 0 else 1

/-- Second key component: position in `originNamesInLookupOrder`, `3`
when unlisted (the code's `indexOf` result `-1` sorts last). -/
def originRank (name : String) : Nat :=
  let o := jsIndexOf originNamesInLookupOrder name
  if o = -1 then 3 else o.toNat

/-- Fourth key component: `0` for a push url entry, so it sorts first. -/
def pushFlag (isPush : Bool) : Nat :=
  if isPush then 0 else 1

/-- The sort key of a remote entry: the comparator of `getRemoteUrls`
orders entries exactly by this key (proved in `remoteCompareE_eq_key`). -/
def remoteKey (branchRemote : Option String) (r : RemoteEntry) : RemoteKey :=
  toLex (branchFlag branchRemote r.name,
    toLex (originRank r.name, toLex (r.name, pushFlag r.isPush)))

/-! ### Lemmas about `jsIndexOf` and `jsArrayGet` -/

theorem jsIndexOf_neg_one_le (l : List String) (x : String) :
    -1 ≤ jsIndexOf l x := by
  induction l with
  | nil => simp [jsIndexOf]
  | cons a rest ih =>
    simp only [jsIndexOf]
    split_ifs <;> omega

theorem jsIndexOf_eq_neg_one (l : List String) (x : String) (h : x ∉ l) :
    jsIndexOf l x = -1 := by
  induction l with
  | nil => simp [jsIndexOf]
  | cons a rest ih =>
    simp only [List.mem_cons, not_or] at h
    simp only [jsIndexOf]
    rw [if_neg (fun e => h.1 e.symm), ih h.2]
    simp

theorem jsIndexOf_nonneg (l : List String) (x : String) (h : x ∈ l) :
    0 ≤ jsIndexOf l x := by
  induction l with
  | nil => cases h
  | cons a rest ih =>
    simp only [jsIndexOf]
    by_cases h1 : a = x
    · simp [h1]
    · have hx : x ∈ rest := by
        rcases List.mem_cons.1 h with h3 | h3
        · exact absurd h3.symm h1
        · exact h3
      have h2 := ih hx
      rw [if_neg h1]
      split_ifs <;> omega

theorem jsArrayGet_jsIndexOf (l : List String) (x : String) (h : x ∈ l) :
    jsArrayGet l (jsIndexOf l x) = some x := by
  induction l with
  | nil => cases h
  | cons a rest ih =>
    by_cases hax : a = x
    · simp [jsIndexOf, hax, jsArrayGet]
    · have hx : x ∈ rest := by
        rcases List.mem_cons.1 h with h3 | h3
        · exact absurd h3.symm hax
        · exact h3
      have hr0 : 0 ≤ jsIndexOf rest x := jsIndexOf_nonneg rest x hx
      have hrne : jsIndexOf rest x ≠ -1 := by omega
      have hget := ih hx
      simp only [jsIndexOf, if_neg hax, if_neg hrne]
      simp only [jsArrayGet, if_pos hr0] at hget
      have h1 : (0 : Int) ≤ jsIndexOf rest x + 1 := by omega
      have h2 : (jsIndexOf rest x + 1).toNat = (jsIndexOf rest x).toNat + 1 := by
        omega
      simp only [jsArrayGet, if_pos h1, h2, List.get?_cons_succ]
      exact hget

/-! ### Lemmas about the severity fold of `getState` -/

theorem le_foldl_sev (l : List Status) : ∀ a : Int,
    a ≤ l.foldl
      (fun m t => max (jsIndexOf stateBySeverity t.state) m) a := by
  induction l with
  | nil => intro a; simp
  | cons s rest ih =>
    intro a
    have h1 : a ≤ max (jsIndexOf stateBySeverity s.state) a := le_max_right _ _
    calc a ≤ max (jsIndexOf stateBySeverity s.state) a := h1
    _ ≤ _ := ih _

theorem mem_le_foldl_sev (l : List Status) : ∀ (a : Int), ∀ s ∈ l,
    jsIndexOf stateBySeverity s.state ≤ l.foldl
      (fun m t => max (jsIndexOf stateBySeverity t.state) m) a := by
  induction l with
  | nil => intro a s hs; cases hs
  | cons t rest ih =>
    intro a s hs
    rcases List.mem_cons.1 hs with h | h
    · subst h
      simp only [List.foldl_cons]
      calc jsIndexOf stateBySeverity s.state
          ≤ max (jsIndexOf stateBySeverity s.state) a := le_max_left _ _
      _ ≤ _ := le_foldl_sev rest _
    · exact ih _ s h

theorem foldl_sev_cases (l : List Status) : ∀ a : Int,
    l.foldl (fun m t => max (jsIndexOf stateBySeverity t.state) m) a = a ∨
    ∃ s ∈ l, l.foldl (fun m t => max (jsIndexOf stateBySeverity t.state) m) a
      = jsIndexOf stateBySeverity s.state := by
  induction l with
  | nil => intro a; left; simp
  | cons t rest ih =>
    intro a
    simp only [List.foldl_cons]
    rcases ih (max (jsIndexOf stateBySeverity t.state) a) with h | ⟨s, hs, h⟩
    · rcases max_choice (jsIndexOf stateBySeverity t.state) a with hm | hm
      · right
        exact ⟨t, List.mem_cons_self _ _, by rw [h, hm]⟩
      · left
        rw [h, hm]
    · right
      exact ⟨s, List.mem_cons_of_mem _ hs, h⟩

theorem foldl_sev_filter (l : List Status) : ∀ a : Int, -1 ≤ a →
    l.foldl (fun m t => max (jsIndexOf stateBySeverity t.state) m) a =
    (l.filter (fun s => decide (s.state ∈ stateBySeverity))).foldl
      (fun m t => max (jsIndexOf stateBySeverity t.state) m) a := by
  induction l with
  | nil => intro a _; rfl
  | cons t rest ih =>
    intro a ha
    by_cases hm : t.state ∈ stateBySeverity
    · rw [List.filter_cons_of_pos (by simpa using hm)]
      simp only [List.foldl_cons]
      exact ih _ (by
        have := jsIndexOf_neg_one_le stateBySeverity t.state
        omega)
    · rw [List.filter_cons_of_neg (by simpa using hm)]
      simp only [List.foldl_cons]
      rw [jsIndexOf_eq_neg_one _ _ hm]
      rw [max_eq_right (by omega : (-1 : Int) ≤ a)]
      exact ih _ ha

theorem stateBySeverity_ne_empty : ∀ x ∈ stateBySeverity, x ≠ "" := by
  decide

/-! ### Claim theorems about `src/index.js` -/

/-- C4: `stateToExitCode` maps `neutral` and `success` to `0`;
`cancelled`, `timed_out`, `action_required`, `failure` and `error` to
`1`; `pending` to `2`; and the empty symbol or any state string outside
the severity scale to `3`. -/
theorem stateToExitCode_spec :
    stateToExitCode "neutral" = 0 ∧ stateToExitCode "success" = 0 ∧
    stateToExitCode "cancelled" = 1 ∧ stateToExitCode "timed_out" = 1 ∧
    stateToExitCode "action_required" = 1 ∧ stateToExitCode "failure" = 1 ∧
    stateToExitCode "error" = 1 ∧ stateToExitCode "pending" = 2 ∧
    stateToExitCode "" = 3 ∧
    ∀ state : String, state ∉ stateBySeverity → stateToExitCode state = 3 := by
  refine ⟨by decide, by decide, by decide, by decide, by decide, by decide,
    by decide, by decide, by decide, ?_⟩
  intro state h
  simp only [stateBySeverity, List.mem_cons, List.not_mem_nil, or_false,
    not_or] at h
  obtain ⟨h1, h2, h3, h4, h5, h6, h7, h8⟩ := h
  simp [stateToExitCode, h1, h2, h3, h4, h5, h6, h7, h8]

/-- Witness for C4: the unrecognized state `bogus` maps to exit code 3. -/
theorem stateToExitCode_spec_witness : stateToExitCode "bogus" = 3 :=
  stateToExitCode_spec.2.2.2.2.2.2.2.2.2 "bogus" (by decide)

/-- C2: on a list of records whose states all lie on the severity scale,
`getState` returns a state occurring in the list that dominates every
other occurring state in severity (scale position), and it returns the
empty string on the empty list; on states `success`, `pending`,
`failure` it returns `failure`. -/
theorem getState_highest (statuses : List Status)
    (h : ∀ s ∈ statuses, s.state ∈ stateBySeverity) :
    (statuses = [] → getState statuses = "") ∧
    (statuses ≠ [] →
      (∃ s ∈ statuses, getState statuses = s.state) ∧
      ∀ s ∈ statuses, jsIndexOf stateBySeverity s.state ≤
        jsIndexOf stateBySeverity (getState statuses)) ∧
    getState [⟨"success", "", none⟩, ⟨"pending", "", none⟩,
      ⟨"failure", "", none⟩] = "failure" := by
  refine ⟨fun he => by subst he; rfl, fun hne => ?_, by decide⟩
  obtain ⟨s0, hs0⟩ := List.exists_mem_of_ne_nil statuses hne
  rcases foldl_sev_cases statuses (-1) with hc | ⟨s, hs, hc⟩
  · exfalso
    have h1 := mem_le_foldl_sev statuses (-1) s0 hs0
    have h2 := jsIndexOf_nonneg stateBySeverity s0.state (h s0 hs0)
    omega
  · have hget : getState statuses = s.state := by
      have hmem := h s hs
      unfold getState
      rw [hc]
      show jsOrEmpty (jsArrayGet stateBySeverity
        (jsIndexOf stateBySeverity s.state)) = s.state
      rw [jsArrayGet_jsIndexOf _ _ hmem]
      simp [jsOrEmpty, stateBySeverity_ne_empty s.state hmem]
    refine ⟨⟨s, hs, hget⟩, fun t ht => ?_⟩
    rw [hget, ← hc]
    exact mem_le_foldl_sev statuses (-1) t ht

/-- Witness for C2: on the record list with states `success`, `pending`,
`failure` (all on the scale, list non-empty) the returned state is one
of the records' states and dominates all of them. -/
theorem getState_highest_witness :
    (∃ s ∈ ([⟨"success", "", none⟩, ⟨"pending", "", none⟩,
        ⟨"failure", "", none⟩] : List Status),
      getState [⟨"success", "", none⟩, ⟨"pending", "", none⟩,
        ⟨"failure", "", none⟩] = s.state) ∧
    ∀ s ∈ ([⟨"success", "", none⟩, ⟨"pending", "", none⟩,
        ⟨"failure", "", none⟩] : List Status),
      jsIndexOf stateBySeverity s.state ≤ jsIndexOf stateBySeverity
        (getState [⟨"success", "", none⟩, ⟨"pending", "", none⟩,
          ⟨"failure", "", none⟩]) :=
  (getState_highest _ (by decide)).2.1 (by decide)

/-- C10: `getState` ignores records whose state is not on the severity
scale: it equals `getState` of the sublist of recognized states, a list
of only unrecognized states yields the empty string, and states
`bogus`, `success` yield `success`. -/
theorem getState_ignores_unknown (statuses : List Status) :
    getState statuses =
      getState (statuses.filter (fun s => decide (s.state ∈ stateBySeverity))) ∧
    ((∀ s ∈ statuses, s.state ∉ stateBySeverity) → getState statuses = "") ∧
    getState [⟨"bogus", "", none⟩, ⟨"success", "", none⟩] = "success" := by
  refine ⟨?_, fun hall => ?_, by decide⟩
  · unfold getState
    rw [foldl_sev_filter statuses (-1) (by omega)]
  · have hfil : statuses.filter (fun s => decide (s.state ∈ stateBySeverity))
        = [] := by
      rw [List.filter_eq_nil_iff]
      intro s hs
      simpa using hall s hs
    unfold getState
    rw [foldl_sev_filter statuses (-1) (by omega), hfil]
    rfl

/-- Witness for C10: a non-empty list with only the unrecognized state
`bogus` yields the empty string. -/
theorem getState_ignores_unknown_witness :
    getState [⟨"bogus", "", none⟩] = "" :=
  (getState_ignores_unknown [⟨"bogus", "", none⟩]).2.1 (by decide)

/-! ### Lemmas about the width fold of `formatStatuses` -/

theorem le_foldl_len (l : List Status) : ∀ a : Nat,
    a ≤ l.foldl (fun m s => max m s.context.data.length) a := by
  induction l with
  | nil => intro a; simp
  | cons s rest ih =>
    intro a
    calc a ≤ max a s.context.data.length := le_max_left _ _
    _ ≤ _ := ih _

theorem mem_le_foldl_len (l : List Status) : ∀ (a : Nat), ∀ s ∈ l,
    s.context.data.length ≤
      l.foldl (fun m t => max m t.context.data.length) a := by
  induction l with
  | nil => intro a s hs; cases hs
  | cons t rest ih =>
    intro a s hs
    rcases List.mem_cons.1 hs with h | h
    · subst h
      simp only [List.foldl_cons]
      calc s.context.data.length ≤ max a s.context.data.length :=
        le_max_right _ _
      _ ≤ _ := le_foldl_len rest _
    · exact ih _ s h

theorem foldl_len_cases (l : List Status) : ∀ a : Nat,
    l.foldl (fun m t => max m t.context.data.length) a = a ∨
    ∃ s ∈ l, l.foldl (fun m t => max m t.context.data.length) a
      = s.context.data.length := by
  induction l with
  | nil => intro a; left; simp
  | cons t rest ih =>
    intro a
    simp only [List.foldl_cons]
    rcases ih (max a t.context.data.length) with h | ⟨s, hs, h⟩
    · rcases max_choice a t.context.data.length with hm | hm
      · left; rw [h, hm]
      · right
        exact ⟨t, List.mem_cons_self _ _, by rw [h, hm]⟩
    · right
      exact ⟨s, List.mem_cons_of_mem _ hs, h⟩

/-- C8: the context column width of `formatStatuses` is `0` when no
record has a (truthy) target url and otherwise the maximum context
length over all records (an upper bound that is attained); each record
renders as its state marker, a tab, the context padded to that width,
and, only when a target url is present, a tab and the url; the lines
are joined with newlines. -/
theorem formatStatuses_layout (statuses : List Status) (useColor : Bool) :
    ((∀ s ∈ statuses, ¬ isTruthyStr s.target_url) →
      contextWidth statuses = 0) ∧
    ((∃ s ∈ statuses, isTruthyStr s.target_url) →
      (∀ s ∈ statuses, s.context.data.length ≤ contextWidth statuses) ∧
      ∃ s ∈ statuses, contextWidth statuses = s.context.data.length) ∧
    formatStatuses statuses useColor =
      String.intercalate "\n" (statuses.map (fun s =>
        getStateMarker s.state useColor ++ "\t"
          ++ padEnd s.context (contextWidth statuses)
          ++ if isTruthyStr s.target_url then "\t" ++ s.target_url.getD ""
             else "")) := by
  refine ⟨fun hnone => ?_, fun hsome => ?_, ?_⟩
  · unfold contextWidth
    rw [if_pos]
    simp only [List.any_eq_true, not_exists, not_and, Bool.not_eq_true]
    intro s hs
    exact Bool.not_eq_true _ |>.mp (by simpa using hnone s hs)
  · have hany : statuses.any (fun s => isTruthyStr s.target_url) = true := by
      obtain ⟨s, hs, ht⟩ := hsome
      exact List.any_eq_true.2 ⟨s, hs, ht⟩
    have hw : contextWidth statuses =
        statuses.foldl (fun m t => max m t.context.data.length) 0 := by
      unfold contextWidth
      rw [if_neg (by simp [hany])]
    constructor
    · intro s hs
      rw [hw]
      exact mem_le_foldl_len statuses 0 s hs
    · obtain ⟨s0, hs0, _⟩ := hsome
      rcases foldl_len_cases statuses 0 with hc | ⟨s, hs, hc⟩
      · refine ⟨s0, hs0, ?_⟩
        have h1 := mem_le_foldl_len statuses 0 s0 hs0
        rw [hw, hc]
        omega
      · exact ⟨s, hs, by rw [hw, hc]⟩
  · rfl

/-- Witness for C8: with one record carrying a target url, the width is
an attained maximum of the context lengths. -/
theorem formatStatuses_layout_witness :
    (∀ s ∈ ([⟨"success", "ab", some "http:u"⟩, ⟨"failure", "wxyz", none⟩]
        : List Status),
      s.context.data.length ≤ contextWidth
        [⟨"success", "ab", some "http:u"⟩, ⟨"failure", "wxyz", none⟩]) ∧
    ∃ s ∈ ([⟨"success", "ab", some "http:u"⟩, ⟨"failure", "wxyz", none⟩]
        : List Status),
      contextWidth [⟨"success", "ab", some "http:u"⟩,
        ⟨"failure", "wxyz", none⟩] = s.context.data.length :=
  (formatStatuses_layout _ false).2.1 (by decide)

/-! ### Lemmas about `projectFromPath` and `findProject` -/

theorem stripGit_empty : stripGit "" = "" := by decide

theorem projectFromPath_eq (pathname : String) :
    projectFromPath pathname =
      match jsSplit '/' pathname with
      | [a, b, c] =>
        if a = "" ∧ b ≠ "" ∧ stripGit c ≠ "" then some (b, stripGit c)
        else none
      | _ => none := by
  unfold projectFromPath
  rcases jsSplit '/' pathname with
    (_ | ⟨a, (_ | ⟨b, (_ | ⟨c, (_ | ⟨d, l⟩)⟩)⟩)⟩) <;> try rfl
  by_cases ha : a = "" <;> by_cases hb : b = "" <;> by_cases hc : c = ""
    <;> by_cases hg : stripGit c = ""
    <;> simp only [ha, hb, hc, hg] <;> simp_all [stripGit_empty]

theorem findProject_first (pre post : List ParsedUrl) (u : ParsedUrl)
    (p : String × String)
    (hpre : ∀ v ∈ pre, projectFromPath v.pathname = none)
    (hu : projectFromPath u.pathname = some p) :
    findProject (pre ++ u :: post) = .ok p := by
  unfold findProject
  rw [List.findSome?_append]
  have h1 : pre.findSome? (fun v => projectFromPath v.pathname) = none :=
    List.findSome?_eq_none_iff.2 hpre
  have h2 : (u :: post).findSome? (fun v => projectFromPath v.pathname)
      = some p := by
    rw [List.findSome?_cons]
    rw [hu]
  rw [h1, h2]
  rfl

/-! ### Claim theorems about `getProjectName` -/

/-- C5: a parsed candidate URL yields a project identity exactly when
its pathname splits on `/` into three segments, the first empty and the
other two non-empty after stripping one trailing `.git` from the last;
the first candidate of that shape yields `(owner, repo)` while earlier
failing candidates are skipped without aborting; paths `/foo`,
`/foo/bar/baz`, `/foo/`, `/foo/.git` are all rejected. -/
theorem projectFromPath_shape :
    (∀ pathname : String, (projectFromPath pathname).isSome ↔
      ∃ a b c, jsSplit '/' pathname = [a, b, c] ∧ a = "" ∧ b ≠ "" ∧
        stripGit c ≠ "") ∧
    (∀ (pathname a b c : String), jsSplit '/' pathname = [a, b, c] →
      a = "" → b ≠ "" → stripGit c ≠ "" →
      projectFromPath pathname = some (b, stripGit c)) ∧
    (∀ (pre post : List ParsedUrl) (u : ParsedUrl) (p : String × String),
      (∀ v ∈ pre, projectFromPath v.pathname = none) →
      projectFromPath u.pathname = some p →
      findProject (pre ++ u :: post) = .ok p) ∧
    projectFromPath "/foo" = none ∧ projectFromPath "/foo/bar/baz" = none ∧
    projectFromPath "/foo/" = none ∧ projectFromPath "/foo/.git" = none := by
  refine ⟨fun pathname => ?_, fun pathname a b c hs ha hb hg => ?_,
    findProject_first, by decide, by decide, by decide, by decide⟩
  · rw [projectFromPath_eq]
    rcases hsplit : jsSplit '/' pathname with
      (_ | ⟨a, (_ | ⟨b, (_ | ⟨c, (_ | ⟨d, l⟩)⟩)⟩)⟩) <;> simp [hsplit]
    constructor
    · rintro ⟨h1, h2, h3⟩
      exact ⟨a, b, c, ⟨rfl, rfl, rfl⟩, h1, h2, h3⟩
    · rintro ⟨a1, b1, c1, ⟨rfl, rfl, rfl⟩, h1, h2, h3⟩
      exact ⟨h1, h2, h3⟩
  · rw [projectFromPath_eq, hs]
    simp [ha, hb, hg]

/-- Witness for C5: the path of the test remote URL
`https://github.com/kevinoid/hub-ci-status.git` yields the expected
owner and repo, and a failing candidate before it is skipped. -/
theorem projectFromPath_shape_witness :
    projectFromPath "/kevinoid/hub-ci-status.git"
      = some ("kevinoid", "hub-ci-status") ∧
    findProject [⟨"github.com", "/foo"⟩,
      ⟨"github.com", "/kevinoid/hub-ci-status.git"⟩]
      = .ok ("kevinoid", "hub-ci-status") :=
  ⟨projectFromPath_shape.2.1 "/kevinoid/hub-ci-status.git" ""
      "kevinoid" "hub-ci-status.git" (by decide) rfl (by decide) (by decide),
   projectFromPath_shape.2.2.1 [⟨"github.com", "/foo"⟩] []
      ⟨"github.com", "/kevinoid/hub-ci-status.git"⟩ _
      (by decide) (by decide)⟩

/-! ### Lemmas about the Set-based candidate construction -/

theorem jsSetOfList_of_nodup {α : Type} [DecidableEq α] :
    ∀ l : List α, l.Nodup → jsSetOfList l = l := by
  intro l
  induction l with
  | nil => intro _; rfl
  | cons x xs ih =>
    intro h
    rw [List.nodup_cons] at h
    unfold jsSetOfList
    rw [ih h.2]
    congr 1
    rw [List.filter_eq_self]
    intro y hy
    exact decide_eq_true (fun he => h.1 (he ▸ hy))

theorem mem_taggedCands_le (env : Option String)
    (parse : String → Option ParsedUrl) :
    ∀ (urls : List String) (k : Nat) (b : Nat × ParsedUrl),
      b ∈ (urls.enumFrom k).filterMap
        (fun iu => (candOf env parse iu.2).map (fun parsed => (iu.1, parsed))) →
      k ≤ b.1 := by
  intro urls
  induction urls with
  | nil => intro k b hb; simp [List.enumFrom] at hb
  | cons a as ih =>
    intro k b hb
    rw [List.enumFrom_cons, List.filterMap_cons] at hb
    cases hc : candOf env parse a with
    | none =>
      rw [show candOf env parse ((k, a) : Nat × String).2 = none from hc] at hb
      simp only [Option.map_none'] at hb
      exact Nat.le_of_succ_le (ih (k + 1) b hb)
    | some p =>
      rw [show candOf env parse ((k, a) : Nat × String).2 = some p from hc]
        at hb
      simp only [Option.map_some'] at hb
      rcases List.mem_cons.1 hb with h | h
      · subst h; exact le_refl k
      · exact Nat.le_of_succ_le (ih (k + 1) b h)

theorem taggedCands_pairwise (env : Option String)
    (parse : String → Option ParsedUrl) :
    ∀ (urls : List String) (k : Nat),
      List.Pairwise (fun x y : Nat × ParsedUrl => x.1 < y.1)
        ((urls.enumFrom k).filterMap
          (fun iu => (candOf env parse iu.2).map
            (fun parsed => (iu.1, parsed)))) := by
  intro urls
  induction urls with
  | nil => intro k; simp [List.enumFrom]
  | cons a as ih =>
    intro k
    rw [List.enumFrom_cons, List.filterMap_cons]
    cases hc : candOf env parse a with
    | none =>
      simp only [Option.map_none']
      exact ih (k + 1)
    | some p =>
      simp only [Option.map_some']
      refine List.Pairwise.cons ?_ (ih (k + 1))
      intro b hb
      exact lt_of_lt_of_le (Nat.lt_succ_self k)
        (mem_taggedCands_le env parse as (k + 1) b hb)

theorem taggedCands_map_snd (env : Option String)
    (parse : String → Option ParsedUrl) :
    ∀ (urls : List String) (k : Nat),
      ((urls.enumFrom k).filterMap
        (fun iu => (candOf env parse iu.2).map
          (fun parsed => (iu.1, parsed)))).map Prod.snd
      = urls.filterMap (candOf env parse) := by
  intro urls
  induction urls with
  | nil => intro k; simp [List.enumFrom]
  | cons a as ih =>
    intro k
    rw [List.enumFrom_cons, List.filterMap_cons, List.filterMap_cons]
    cases hc : candOf env parse a with
    | none =>
      simp only [Option.map_none']
      exact ih (k + 1)
    | some p =>
      simp only [Option.map_some', List.map_cons]
      rw [ih (k + 1)]

theorem getGitHubUrls_untag (config : List (String × String))
    (br env : Option String) (parse : String → Option ParsedUrl) :
    (getGitHubUrlsE config br env parse).map (List.map Prod.snd)
      = gitHubUrlsPlain config br env parse := by
  unfold getGitHubUrlsE gitHubUrlsPlain
  cases h : getRemoteUrlsE config br with
  | error e => rfl
  | ok urls =>
    show Except.ok ((jsSetOfList _).map Prod.snd) = Except.ok _
    have hpw := taggedCands_pairwise env parse urls 0
    have hnd : ((urls.enumFrom 0).filterMap
        (fun iu => (candOf env parse iu.2).map
          (fun parsed => (iu.1, parsed)))).Nodup :=
      hpw.imp (fun hab he => absurd (he ▸ hab) (lt_irrefl _))
    rw [show urls.enum = urls.enumFrom 0 from rfl]
    rw [jsSetOfList_of_nodup _ hnd, taggedCands_map_snd env parse urls 0]

/-! ### Claim theorems about `getGitHubUrls` and `getProjectName` -/

/-- C9: wrapping the freshly parsed candidates in `new Set(...)` removes
nothing: untagging the identity-keyed construction gives exactly the
plain filtered list, and a config with two value-equal remote URLs
yields two (equal) trial candidates. -/
theorem getGitHubUrls_no_identity_dedup :
    (∀ (config : List (String × String)) (br env : Option String)
      (parse : String → Option ParsedUrl),
      (getGitHubUrlsE config br env parse).map (List.map Prod.snd)
        = gitHubUrlsPlain config br env parse) ∧
    (getGitHubUrlsE [("remote.a.url", "u"), ("remote.b.url", "u")] none none
        (fun s => if s = "u" then some ⟨"github.com", "/o/r"⟩ else none)).map
        (List.map Prod.snd)
      = .ok [⟨"github.com", "/o/r"⟩, ⟨"github.com", "/o/r"⟩] :=
  ⟨getGitHubUrls_untag, rfl⟩

theorem candOf_eq_some (env : Option String)
    (parse : String → Option ParsedUrl) (url : String) (u : ParsedUrl) :
    candOf env parse url = some u ↔
      parse url = some u ∧ hostOk env u.hostname = true := by
  unfold candOf
  cases hp : parse url with
  | none => simp
  | some parsed =>
    show (if hostOk env parsed.hostname = true then some parsed else none)
      = some u ↔ _
    by_cases hh : hostOk env parsed.hostname = true
    · rw [if_pos hh]
      constructor
      · rintro he
        rw [Option.some_inj] at he
        subst he
        exact ⟨rfl, hh⟩
      · rintro ⟨he, _⟩
        rw [Option.some_inj] at he
        subst he
        rfl
    · rw [if_neg hh]
      constructor
      · rintro ⟨⟩
      · rintro ⟨he, hu⟩
        rw [Option.some_inj] at he
        subst he
        exact absurd hu hh

/-- C6: a successfully parsed remote URL is kept as a candidate exactly
when its hostname is `github.com`, equals the `GITHUB_HOST` environment
value, or ends with `.github.com`; in particular, when `GITHUB_HOST` is
not set to it, the hostname `github.com.example.com` is rejected. -/
theorem getGitHubUrls_host_filter :
    (∀ (config : List (String × String)) (br env : Option String)
      (parse : String → Option ParsedUrl) (urls : List String)
      (cands : List (Nat × ParsedUrl)) (u : ParsedUrl),
      getRemoteUrlsE config br = .ok urls →
      getGitHubUrlsE config br env parse = .ok cands →
      (u ∈ cands.map Prod.snd ↔ ∃ url ∈ urls, parse url = some u ∧
        (u.hostname = "github.com" ∨ some u.hostname = env ∨
          strEndsWith u.hostname ".github.com" = true))) ∧
    ∀ env : Option String, env ≠ some "github.com.example.com" →
      hostOk env "github.com.example.com" = false := by
  constructor
  · intro config br env parse urls cands u hurls hcands
    have huntag := getGitHubUrls_untag config br env parse
    rw [hcands] at huntag
    unfold gitHubUrlsPlain at huntag
    rw [hurls] at huntag
    have hlist : cands.map Prod.snd = urls.filterMap (candOf env parse) := by
      exact Except.ok.inj huntag
    rw [hlist, List.mem_filterMap]
    constructor
    · rintro ⟨url, hmem, hcand⟩
      obtain ⟨hp, hh⟩ := (candOf_eq_some env parse url u).1 hcand
      refine ⟨url, hmem, hp, ?_⟩
      simpa [hostOk, or_assoc] using hh
    · rintro ⟨url, hmem, hp, hcond⟩
      refine ⟨url, hmem, (candOf_eq_some env parse url u).2 ⟨hp, ?_⟩⟩
      simpa [hostOk, or_assoc] using hcond
  · intro env he
    have h2 : decide (some "github.com.example.com" = env) = false :=
      decide_eq_false (fun h => he h.symm)
    simp only [hostOk, h2]
    decide

/-- Witness for C6: with one `github.com` remote the parsed URL is a
kept candidate, and `github.com.example.com` is rejected when
`GITHUB_HOST` is unset. -/
theorem getGitHubUrls_host_filter_witness :
    ((⟨"github.com", "/o/r"⟩ : ParsedUrl) ∈
        ([(0, (⟨"github.com", "/o/r"⟩ : ParsedUrl))].map Prod.snd) ↔
      ∃ url ∈ ["u"],
        (fun _ : String => some (⟨"github.com", "/o/r"⟩ : ParsedUrl)) url
          = some ⟨"github.com", "/o/r"⟩ ∧
        ((⟨"github.com", "/o/r"⟩ : ParsedUrl).hostname = "github.com" ∨
          some (⟨"github.com", "/o/r"⟩ : ParsedUrl).hostname
            = (none : Option String) ∨
          strEndsWith (⟨"github.com", "/o/r"⟩ : ParsedUrl).hostname
            ".github.com" = true)) ∧
    hostOk none "github.com.example.com" = false :=
  ⟨getGitHubUrls_host_filter.1 [("remote.origin.url", "u")] none none
      (fun _ => some ⟨"github.com", "/o/r"⟩) ["u"]
      [(0, ⟨"github.com", "/o/r"⟩)] ⟨"github.com", "/o/r"⟩ rfl rfl,
   getGitHubUrls_host_filter.2 none (by decide)⟩

/-- C3 (divergence from the spec and the repository's own tests): at an
input where remote resolution yields no candidates (the empty config),
`getProjectName` fails with a plain JS `Error` whose `name` is `"Error"`
and not `"UnknownProjectError"`, while carrying the descriptive message
of lines 149-150 of `src/lib/github-utils.js`. -/
theorem getProjectName_generic_error :
    getProjectNameE none [] none (fun _ => none) =
      .error ⟨"Error",
        "Unable to determine GitHub project name: No GitHub remote URLs recognized."⟩ ∧
    (JsError.name ⟨"Error",
        "Unable to determine GitHub project name: No GitHub remote URLs recognized."⟩
      ≠ "UnknownProjectError") :=
  ⟨rfl, by decide⟩

/-! ### The comparator orders entries by their lexicographic key -/

theorem charListLt_iff_listLt :
    ∀ as bs : List Char, charListLt as bs = true ↔ List.lt as bs
  | [], [] => by
    constructor
    · intro h; exact absurd h (by simp [charListLt])
    · intro h; nomatch h
  | [], b :: bs => by
    exact iff_of_true (by simp [charListLt]) (List.lt.nil b bs)
  | a :: as, [] => by
    constructor
    · intro h; exact absurd h (by simp [charListLt])
    · intro h; nomatch h
  | a :: as, b :: bs => by
    unfold charListLt
    by_cases h1 : a < b
    · exact iff_of_true (by simp [if_pos h1]) (List.lt.head as bs h1)
    · by_cases h2 : b < a
      · simp only [if_neg h1, if_pos h2]
        constructor
        · intro h; exact absurd h (by simp)
        · intro h
          cases h with
          | head _ _ h3 => exact absurd h3 h1
          | tail _ h3 _ => exact absurd h2 h3
      · simp only [if_neg h1, if_neg h2]
        rw [charListLt_iff_listLt as bs]
        constructor
        · exact List.lt.tail h1 h2
        · intro h
          cases h with
          | head _ _ h3 => exact absurd h3 h1
          | tail _ _ h3 => exact h3

theorem charListLt_iff_lt (s t : String) :
    charListLt s.data t.data = true ↔ s < t := by
  rw [String.lt_iff_toList_lt]
  show charListLt s.data t.data = true ↔ List.Lex (· < ·) s.toList t.toList
  rw [← List.lt_iff_lex_lt]
  exact charListLt_iff_listLt s.data t.data

theorem jsIndexOf_origin (n : String) :
    jsIndexOf originNamesInLookupOrder n =
      if n = "upstream" then 0
      else if n = "github" then 1
      else if n = "origin" then 2
      else -1 := by
  by_cases h1 : n = "upstream" <;> by_cases h2 : n = "github"
    <;> by_cases h3 : n = "origin" <;>
    simp_all [jsIndexOf, originNamesInLookupOrder, eq_comm]

theorem originRank_eq (n : String) :
    originRank n =
      if n = "upstream" then 0
      else if n = "github" then 1
      else if n = "origin" then 2
      else 3 := by
  unfold originRank
  rw [jsIndexOf_origin]
  by_cases h1 : n = "upstream" <;> by_cases h2 : n = "github"
    <;> by_cases h3 : n = "origin" <;> simp_all

theorem rankSpec_eq_originRank (n : String) : rankSpec n = originRank n := by
  rw [originRank_eq, rankSpec]

theorem pushFlag_inj (a b : Bool) : pushFlag a = pushFlag b ↔ a = b := by
  cases a <;> cases b <;> simp [pushFlag]

theorem remoteKey_lt_iff (br : Option String) (r1 r2 : RemoteEntry) :
    remoteKey br r1 < remoteKey br r2 ↔
      (branchFlag br r1.name < branchFlag br r2.name ∨
        (branchFlag br r1.name = branchFlag br r2.name ∧
          (originRank r1.name < originRank r2.name ∨
            (originRank r1.name = originRank r2.name ∧
              (r1.name < r2.name ∨
                (r1.name = r2.name ∧
                  pushFlag r1.isPush < pushFlag r2.isPush)))))) := by
  simp [remoteKey, Prod.Lex.lt_iff]

theorem remoteKey_eq_iff (br : Option String) (r1 r2 : RemoteEntry) :
    remoteKey br r1 = remoteKey br r2 ↔
      (r1.name = r2.name ∧ r1.isPush = r2.isPush) := by
  unfold remoteKey
  rw [toLex_inj, Prod.ext_iff, toLex_inj, Prod.ext_iff, toLex_inj,
    Prod.ext_iff]
  constructor
  · rintro ⟨h1, h2, h3, h4⟩
    exact ⟨h3, (pushFlag_inj _ _).1 h4⟩
  · rintro ⟨hn, hp⟩
    exact ⟨by rw [hn], by rw [hn], hn, by rw [hp]⟩

theorem stage2_cases (n1 n2 : String) :
    (originRank n1 = originRank n2 ∧
      jsIndexOf originNamesInLookupOrder n1
        = jsIndexOf originNamesInLookupOrder n2) ∨
    (originRank n1 < originRank n2 ∧
      jsIndexOf originNamesInLookupOrder n1
        ≠ jsIndexOf originNamesInLookupOrder n2 ∧
      (if jsIndexOf originNamesInLookupOrder n1 = -1 then Ordering.gt
       else if jsIndexOf originNamesInLookupOrder n2 = -1 then Ordering.lt
       else if jsIndexOf originNamesInLookupOrder n1
          < jsIndexOf originNamesInLookupOrder n2 then Ordering.lt
       else Ordering.gt) = Ordering.lt) ∨
    (originRank n2 < originRank n1 ∧
      jsIndexOf originNamesInLookupOrder n1
        ≠ jsIndexOf originNamesInLookupOrder n2 ∧
      (if jsIndexOf originNamesInLookupOrder n1 = -1 then Ordering.gt
       else if jsIndexOf originNamesInLookupOrder n2 = -1 then Ordering.lt
       else if jsIndexOf originNamesInLookupOrder n1
          < jsIndexOf originNamesInLookupOrder n2 then Ordering.lt
       else Ordering.gt) = Ordering.gt) := by
  rw [originRank_eq, originRank_eq, jsIndexOf_origin, jsIndexOf_origin]
  by_cases h1 : n1 = "upstream" <;> by_cases h2 : n1 = "github"
    <;> by_cases h3 : n1 = "origin" <;> by_cases h4 : n2 = "upstream"
    <;> by_cases h5 : n2 = "github" <;> by_cases h6 : n2 = "origin"
    <;> simp_all

theorem remoteCompare_tail_eq (br : Option String) (r1 r2 : RemoteEntry)
    (hf : branchFlag br r1.name = branchFlag br r2.name) :
    (if jsIndexOf originNamesInLookupOrder r1.name
        ≠ jsIndexOf originNamesInLookupOrder r2.name then
      (Except.ok
        (if jsIndexOf originNamesInLookupOrder r1.name = -1 then Ordering.gt
         else if jsIndexOf originNamesInLookupOrder r2.name = -1 then
           Ordering.lt
         else if jsIndexOf originNamesInLookupOrder r1.name
            < jsIndexOf originNamesInLookupOrder r2.name then Ordering.lt
         else Ordering.gt) : Except JsError Ordering)
     else if r1.name ≠ r2.name then
       Except.ok
         (if charListLt r1.name.data r2.name.data then Ordering.lt
          else Ordering.gt)
     else if r1.isPush ≠ r2.isPush then
       Except.ok (if r1.isPush then Ordering.lt else Ordering.gt)
     else Except.error (dupConfigError r1)) =
    (if remoteKey br r1 < remoteKey br r2 then Except.ok Ordering.lt
     else if remoteKey br r2 < remoteKey br r1 then Except.ok Ordering.gt
     else Except.error (dupConfigError r1)) := by
  have key12 := remoteKey_lt_iff br r1 r2
  have key21 := remoteKey_lt_iff br r2 r1
  rcases stage2_cases r1.name r2.name with ⟨heq, hio⟩ | ⟨hlt, hne, hord⟩
    | ⟨hgt, hne, hord⟩
  · rw [if_neg (not_not_intro hio)]
    by_cases hn : r1.name = r2.name
    · rw [if_neg (not_not_intro hn)]
      cases hp1 : r1.isPush <;> cases hp2 : r2.isPush
      · have hkeq : remoteKey br r1 = remoteKey br r2 :=
          (remoteKey_eq_iff br r1 r2).2 ⟨hn, by rw [hp1, hp2]⟩
        rw [hkeq, if_neg (lt_irrefl _), if_neg (lt_irrefl _)]
        simp
      · have hk2 : remoteKey br r2 < remoteKey br r1 :=
          key21.2 (Or.inr ⟨hf.symm, Or.inr ⟨heq.symm, Or.inr
            ⟨hn.symm, by simp [pushFlag, hp1, hp2]⟩⟩⟩)
        rw [if_neg (lt_asymm hk2), if_pos hk2]
        simp
      · have hk : remoteKey br r1 < remoteKey br r2 :=
          key12.2 (Or.inr ⟨hf, Or.inr ⟨heq, Or.inr
            ⟨hn, by simp [pushFlag, hp1, hp2]⟩⟩⟩)
        rw [if_pos hk]
        simp
      · have hkeq : remoteKey br r1 = remoteKey br r2 :=
          (remoteKey_eq_iff br r1 r2).2 ⟨hn, by rw [hp1, hp2]⟩
        rw [hkeq, if_neg (lt_irrefl _), if_neg (lt_irrefl _)]
        simp
    · rw [if_pos hn]
      by_cases hcl : charListLt r1.name.data r2.name.data = true
      · have hslt : r1.name < r2.name := (charListLt_iff_lt _ _).1 hcl
        have hk : remoteKey br r1 < remoteKey br r2 :=
          key12.2 (Or.inr ⟨hf, Or.inr ⟨heq, Or.inl hslt⟩⟩)
        rw [if_pos hcl, if_pos hk]
      · have hcl2 : charListLt r1.name.data r2.name.data = false :=
          Bool.not_eq_true _ |>.mp hcl
        have hslt : r2.name < r1.name := by
          rcases lt_or_gt_of_ne hn with h | h
          · exact absurd ((charListLt_iff_lt _ _).2 h) hcl
          · exact h
        have hk2 : remoteKey br r2 < remoteKey br r1 :=
          key21.2 (Or.inr ⟨hf.symm, Or.inr ⟨heq.symm, Or.inl hslt⟩⟩)
        rw [hcl2, if_neg (lt_asymm hk2), if_pos hk2]
        rfl
  · have hk : remoteKey br r1 < remoteKey br r2 :=
      key12.2 (Or.inr ⟨hf, Or.inl hlt⟩)
    rw [if_pos hne, hord, if_pos hk]
  · have hk2 : remoteKey br r2 < remoteKey br r1 :=
      key21.2 (Or.inr ⟨hf.symm, Or.inl hgt⟩)
    rw [if_pos hne, hord, if_neg (lt_asymm hk2), if_pos hk2]

theorem remoteCompareE_eq_key (br : Option String) (r1 r2 : RemoteEntry) :
    remoteCompareE br r1 r2 =
      (if remoteKey br r1 < remoteKey br r2 then Except.ok Ordering.lt
       else if remoteKey br r2 < remoteKey br r1 then Except.ok Ordering.gt
       else Except.error (dupConfigError r1)) := by
  unfold remoteCompareE
  by_cases hb1 : some r1.name = br <;> by_cases hb2 : some r2.name = br
  · have hpe : (some r1.name = br) = (some r2.name = br) :=
      propext (iff_of_true hb1 hb2)
    rw [if_neg (not_not_intro hpe)]
    exact remoteCompare_tail_eq br r1 r2
      (by rw [branchFlag, branchFlag, if_pos hb1, if_pos hb2])
  · have hne : (some r1.name = br) ≠ (some r2.name = br) :=
      fun h => hb2 (h ▸ hb1)
    have hk : remoteKey br r1 < remoteKey br r2 :=
      (remoteKey_lt_iff br r1 r2).2 (Or.inl (by
        rw [branchFlag, branchFlag, if_pos hb1, if_neg hb2]; omega))
    rw [if_pos hne, if_pos hb1, if_pos hk]
  · have hne : (some r1.name = br) ≠ (some r2.name = br) :=
      fun h => hb1 (h.symm ▸ hb2)
    have hk2 : remoteKey br r2 < remoteKey br r1 :=
      (remoteKey_lt_iff br r2 r1).2 (Or.inl (by
        rw [branchFlag, branchFlag, if_pos hb2, if_neg hb1]; omega))
    rw [if_pos hne, if_neg hb1, if_neg (lt_asymm hk2), if_pos hk2]
  · have hpe : (some r1.name = br) = (some r2.name = br) :=
      propext (iff_of_false hb1 hb2)
    rw [if_neg (not_not_intro hpe)]
    exact remoteCompare_tail_eq br r1 r2
      (by rw [branchFlag, branchFlag, if_neg hb1, if_neg hb2])

theorem pushFlag_lt_iff (a b : Bool) :
    (a && !b) = true ↔ pushFlag a < pushFlag b := by
  cases a <;> cases b <;> simp [pushFlag]

theorem specBefore_tail_iff (r1 r2 : RemoteEntry) :
    ((if originRank r1.name ≠ originRank r2.name
      then decide (originRank r1.name < originRank r2.name)
      else if r1.name ≠ r2.name then decide (r1.name < r2.name)
      else r1.isPush && !r2.isPush) = true) ↔
      (originRank r1.name < originRank r2.name ∨
        (originRank r1.name = originRank r2.name ∧
          (r1.name < r2.name ∨ (r1.name = r2.name ∧
            pushFlag r1.isPush < pushFlag r2.isPush)))) := by
  by_cases ho : originRank r1.name = originRank r2.name
  · rw [if_neg (not_not_intro ho)]
    by_cases hn : r1.name = r2.name
    · rw [if_neg (not_not_intro hn)]
      constructor
      · intro hpp
        exact Or.inr ⟨ho, Or.inr ⟨hn, (pushFlag_lt_iff _ _).1 hpp⟩⟩
      · rintro (h | ⟨_, (h | ⟨_, hpf⟩)⟩)
        · omega
        · exact absurd (hn ▸ h) (lt_irrefl _)
        · exact (pushFlag_lt_iff _ _).2 hpf
    · rw [if_pos hn]
      constructor
      · intro h
        exact Or.inr ⟨ho, Or.inl (of_decide_eq_true h)⟩
      · rintro (h | ⟨_, (h | ⟨hn2, _⟩)⟩)
        · omega
        · exact decide_eq_true h
        · exact absurd hn2 hn
  · rw [if_pos ho]
    constructor
    · intro h
      exact Or.inl (of_decide_eq_true h)
    · rintro (h | ⟨he, _⟩)
      · exact decide_eq_true h
      · exact absurd he ho

theorem specBefore_iff_key (br : Option String) (r1 r2 : RemoteEntry) :
    specBefore br r1 r2 = true ↔ remoteKey br r1 < remoteKey br r2 := by
  rw [remoteKey_lt_iff]
  unfold specBefore
  rw [rankSpec_eq_originRank, rankSpec_eq_originRank]
  by_cases hb1 : some r1.name = br <;> by_cases hb2 : some r2.name = br
  · have hf1 : branchFlag br r1.name = 0 := if_pos hb1
    have hf2 : branchFlag br r2.name = 0 := if_pos hb2
    rw [if_neg (not_not_intro (propext (iff_of_true hb1 hb2))), hf1, hf2]
    rw [show ((0 : Nat) < 0 ∨ (0 : Nat) = 0 ∧
        (originRank r1.name < originRank r2.name ∨
          originRank r1.name = originRank r2.name ∧
            (r1.name < r2.name ∨ r1.name = r2.name ∧
              pushFlag r1.isPush < pushFlag r2.isPush))) =
      (originRank r1.name < originRank r2.name ∨
        originRank r1.name = originRank r2.name ∧
          (r1.name < r2.name ∨ r1.name = r2.name ∧
            pushFlag r1.isPush < pushFlag r2.isPush)) by simp]
    exact specBefore_tail_iff r1 r2
  · have hf1 : branchFlag br r1.name = 0 := if_pos hb1
    have hf2 : branchFlag br r2.name = 1 := if_neg hb2
    rw [if_pos (show (some r1.name = br) ≠ (some r2.name = br) from
      fun h => hb2 (h ▸ hb1)), hf1, hf2]
    simp [hb1]
  · have hf1 : branchFlag br r1.name = 1 := if_neg hb1
    have hf2 : branchFlag br r2.name = 0 := if_pos hb2
    rw [if_pos (show (some r1.name = br) ≠ (some r2.name = br) from
      fun h => hb1 (h.symm ▸ hb2)), hf1, hf2]
    simp [hb1]
  · have hf1 : branchFlag br r1.name = 1 := if_neg hb1
    have hf2 : branchFlag br r2.name = 1 := if_neg hb2
    rw [if_neg (not_not_intro (propext (iff_of_false hb1 hb2))), hf1, hf2]
    rw [show ((1 : Nat) < 1 ∨ (1 : Nat) = 1 ∧
        (originRank r1.name < originRank r2.name ∨
          originRank r1.name = originRank r2.name ∧
            (r1.name < r2.name ∨ r1.name = r2.name ∧
              pushFlag r1.isPush < pushFlag r2.isPush))) =
      (originRank r1.name < originRank r2.name ∨
        originRank r1.name = originRank r2.name ∧
          (r1.name < r2.name ∨ r1.name = r2.name ∧
            pushFlag r1.isPush < pushFlag r2.isPush)) by simp]
    exact specBefore_tail_iff r1 r2

theorem orderedInsertE_ok (br : Option String) (x : RemoteEntry) :
    ∀ l : List RemoteEntry,
      (∀ y ∈ l, remoteKey br x ≠ remoteKey br y) →
      List.Pairwise (fun a b => remoteKey br a < remoteKey br b) l →
      ∃ m, orderedInsertE (remoteCompareE br) x l = .ok m ∧
        m.Perm (x :: l) ∧
        List.Pairwise (fun a b => remoteKey br a < remoteKey br b) m := by
  intro l
  induction l with
  | nil =>
    intro _ _
    exact ⟨[x], rfl, List.Perm.refl _, List.pairwise_singleton _ _⟩
  | cons y ys ih =>
    intro hne hp
    have hxy : remoteKey br x ≠ remoteKey br y :=
      hne y (List.mem_cons_self _ _)
    rw [List.pairwise_cons] at hp
    rcases lt_or_gt_of_ne hxy with hlt | hgt
    · refine ⟨x :: y :: ys, ?_, List.Perm.refl _, ?_⟩
      · unfold orderedInsertE
        rw [remoteCompareE_eq_key, if_pos hlt]
        rfl
      · refine List.Pairwise.cons ?_ (List.Pairwise.cons hp.1 hp.2)
        intro b hb
        rcases List.mem_cons.1 hb with h | h
        · rw [h]; exact hlt
        · exact lt_trans hlt (hp.1 b h)
    · have hne2 : ∀ z ∈ ys, remoteKey br x ≠ remoteKey br z :=
        fun z hz => hne z (List.mem_cons_of_mem _ hz)
      obtain ⟨m, hm, hperm, hsort⟩ := ih hne2 hp.2
      refine ⟨y :: m, ?_, ?_, ?_⟩
      · unfold orderedInsertE
        rw [remoteCompareE_eq_key, if_neg (lt_asymm hgt), if_pos hgt, hm]
        rfl
      · exact (hperm.cons y).trans (List.Perm.swap x y ys)
      · refine List.Pairwise.cons ?_ hsort
        intro b hb
        rcases List.mem_cons.1 ((hperm.mem_iff).1 hb) with h | h
        · rw [h]; exact hgt
        · exact hp.1 b h

theorem orderedInsertE_error_of_dup (br : Option String) (x : RemoteEntry) :
    ∀ l : List RemoteEntry,
      List.Pairwise (fun a b => remoteKey br a < remoteKey br b) l →
      (∃ y ∈ l, remoteKey br y = remoteKey br x) →
      ∃ r, orderedInsertE (remoteCompareE br) x l
        = .error (dupConfigError r) := by
  intro l
  induction l with
  | nil =>
    rintro _ ⟨y, hy, _⟩
    cases hy
  | cons z zs ih =>
    rintro hp ⟨y, hy, hkey⟩
    rw [List.pairwise_cons] at hp
    rcases lt_trichotomy (remoteKey br x) (remoteKey br z) with hlt | heq | hgt
    · exfalso
      rcases List.mem_cons.1 hy with h | h
      · rw [h] at hkey
        exact absurd hlt (hkey ▸ lt_irrefl _)
      · have h2 := hp.1 y h
        rw [hkey] at h2
        exact absurd hlt (lt_asymm h2)
    · refine ⟨x, ?_⟩
      unfold orderedInsertE
      rw [remoteCompareE_eq_key, if_neg (heq ▸ lt_irrefl _),
        if_neg (heq ▸ lt_irrefl _)]
    · have hy2 : y ∈ zs := by
        rcases List.mem_cons.1 hy with h | h
        · rw [h] at hkey
          exact absurd hgt (hkey ▸ lt_irrefl _)
        · exact h
      obtain ⟨r, hr⟩ := ih hp.2 ⟨y, hy2, hkey⟩
      refine ⟨r, ?_⟩
      unfold orderedInsertE
      rw [remoteCompareE_eq_key, if_neg (lt_asymm hgt), if_pos hgt, hr]
      rfl

theorem insertionSortE_ok (br : Option String) :
    ∀ l : List RemoteEntry,
      List.Pairwise (fun a b => remoteKey br a ≠ remoteKey br b) l →
      ∃ s, insertionSortE (remoteCompareE br) l = .ok s ∧ s.Perm l ∧
        List.Pairwise (fun a b => remoteKey br a < remoteKey br b) s := by
  intro l
  induction l with
  | nil =>
    intro _
    exact ⟨[], rfl, List.Perm.refl _, List.Pairwise.nil⟩
  | cons x xs ih =>
    intro hp
    rw [List.pairwise_cons] at hp
    obtain ⟨s, hs, hperm, hsort⟩ := ih hp.2
    have hne : ∀ y ∈ s, remoteKey br x ≠ remoteKey br y :=
      fun y hy => hp.1 y ((hperm.mem_iff).1 hy)
    obtain ⟨m, hm, hmperm, hmsort⟩ := orderedInsertE_ok br x s hne hsort
    refine ⟨m, ?_, hmperm.trans (hperm.cons x), hmsort⟩
    unfold insertionSortE
    rw [hs]
    exact hm

theorem insertionSortE_error_of_dup (br : Option String) :
    ∀ l : List RemoteEntry,
      ¬ List.Pairwise (fun a b => remoteKey br a ≠ remoteKey br b) l →
      ∃ r, insertionSortE (remoteCompareE br) l
        = .error (dupConfigError r) := by
  intro l
  induction l with
  | nil =>
    intro h
    exact absurd List.Pairwise.nil h
  | cons x xs ih =>
    intro h
    by_cases hxs : List.Pairwise
        (fun a b => remoteKey br a ≠ remoteKey br b) xs
    · have hex : ∃ y ∈ xs, remoteKey br x = remoteKey br y := by
        by_contra hno
        push_neg at hno
        exact h (List.Pairwise.cons hno hxs)
      obtain ⟨y, hy, hkey⟩ := hex
      obtain ⟨s, hs, hperm, hsort⟩ := insertionSortE_ok br xs hxs
      obtain ⟨r, hr⟩ := orderedInsertE_error_of_dup br x s hsort
        ⟨y, (hperm.mem_iff).2 hy, hkey.symm⟩
      refine ⟨r, ?_⟩
      unfold insertionSortE
      rw [hs]
      exact hr
    · obtain ⟨r, hr⟩ := ih hxs
      refine ⟨r, ?_⟩
      unfold insertionSortE
      rw [hr]

theorem strDropRight_append (rest sfx : String)
    (h : strEndsWith rest sfx = true) :
    rest.data = (strDropRight rest sfx.data.length).data ++ sfx.data := by
  unfold strEndsWith at h
  obtain ⟨t2, ht2⟩ : ∃ t2, t2 ++ sfx.data = rest.data :=
    (List.isSuffixOf_iff_suffix).1 h
  show rest.data
    = rest.data.take (rest.data.length - sfx.data.length) ++ sfx.data
  rw [← ht2]
  have hlen : (t2 ++ sfx.data).length - sfx.data.length = t2.length := by
    simp [List.length_append]
  rw [hlen, List.take_left]

theorem parseRemoteKey_some (key n : String) (p : Bool)
    (h : parseRemoteKey key = some (n, p)) :
    key.data = "remote.".data ++ n.data
      ++ (if p then (".pushurl" : String) else ".url").data := by
  unfold parseRemoteKey at h
  by_cases h1 : strStartsWith key "remote." = true
  · rw [if_pos h1] at h
    unfold strStartsWith at h1
    obtain ⟨t, ht⟩ : ∃ t, "remote.".data ++ t = key.data :=
      (List.isPrefixOf_iff_prefix).1 h1
    have hrest : (strDrop key 7).data = t := by
      show key.data.drop 7 = t
      rw [← ht, show (7 : Nat) = ("remote.".data).length from rfl,
        List.drop_left]
    by_cases h2 : strEndsWith (strDrop key 7) ".pushurl" = true
    · rw [if_pos h2] at h
      by_cases h3 : ((strDropRight (strDrop key 7) 8).data.all
          isRegexDotChar) = true
      · rw [if_pos h3] at h
        have h4 := Option.some_inj.1 h
        have hn : n = strDropRight (strDrop key 7) 8 :=
          (congrArg Prod.fst h4).symm
        have hp : p = true := (congrArg Prod.snd h4).symm
        have hsfx := strDropRight_append (strDrop key 7) ".pushurl" h2
        rw [show ((".pushurl" : String).data.length) = 8 from rfl] at hsfx
        rw [hn, hp]
        calc key.data = "remote.".data ++ t := ht.symm
        _ = "remote.".data ++ (strDrop key 7).data := by rw [hrest]
        _ = "remote.".data ++ ((strDropRight (strDrop key 7) 8).data
            ++ (".pushurl" : String).data) := by rw [← hsfx]
        _ = "remote.".data ++ (strDropRight (strDrop key 7) 8).data
            ++ (if (true : Bool) then (".pushurl" : String)
              else ".url").data := by
          rw [if_pos rfl, List.append_assoc]
      · rw [if_neg h3] at h
        cases h
    · by_cases h2b : strEndsWith (strDrop key 7) ".url" = true
      · rw [if_neg h2, if_pos h2b] at h
        by_cases h3 : ((strDropRight (strDrop key 7) 4).data.all
            isRegexDotChar) = true
        · rw [if_pos h3] at h
          have h4 := Option.some_inj.1 h
          have hn : n = strDropRight (strDrop key 7) 4 :=
            (congrArg Prod.fst h4).symm
          have hp : p = false := (congrArg Prod.snd h4).symm
          have hsfx := strDropRight_append (strDrop key 7) ".url" h2b
          rw [show ((".url" : String).data.length) = 4 from rfl] at hsfx
          rw [hn, hp]
          calc key.data = "remote.".data ++ t := ht.symm
          _ = "remote.".data ++ (strDrop key 7).data := by rw [hrest]
          _ = "remote.".data ++ ((strDropRight (strDrop key 7) 4).data
              ++ (".url" : String).data) := by rw [← hsfx]
          _ = "remote.".data ++ (strDropRight (strDrop key 7) 4).data
              ++ (if (false : Bool) then (".pushurl" : String)
                else ".url").data := by
            rw [if_neg (by simp), List.append_assoc]
        · rw [if_neg h3] at h
          cases h
      · rw [if_neg h2, if_neg h2b] at h
        cases h
  · rw [if_neg h1] at h
    cases h

theorem parseRemoteKey_inj (k1 k2 : String) (np : String × Bool)
    (h1 : parseRemoteKey k1 = some np) (h2 : parseRemoteKey k2 = some np) :
    k1 = k2 := by
  obtain ⟨n, p⟩ := np
  have e1 := parseRemoteKey_some k1 n p h1
  have e2 := parseRemoteKey_some k2 n p h2
  exact String.ext (e1.trans e2.symm)

theorem extractRemotes_pairwise (config : List (String × String))
    (h : (config.map Prod.fst).Nodup) :
    List.Pairwise (fun a b : RemoteEntry =>
      ¬(a.name = b.name ∧ a.isPush = b.isPush)) (extractRemotes config) := by
  unfold extractRemotes
  rw [List.pairwise_filterMap]
  have h2 : List.Pairwise (fun a b : String × String => a.1 ≠ b.1) config :=
    (List.pairwise_map).1 h
  refine h2.imp ?_
  intro kv1 kv2 hne b1 hb1 b2 hb2 hcol
  rw [Option.mem_def, Option.map_eq_some'] at hb1 hb2
  obtain ⟨np1, hnp1, hg1⟩ := hb1
  obtain ⟨np2, hnp2, hg2⟩ := hb2
  have hb1n : b1.name = np1.1 := by rw [← hg1]
  have hb1p : b1.isPush = np1.2 := by rw [← hg1]
  have hb2n : b2.name = np2.1 := by rw [← hg2]
  have hb2p : b2.isPush = np2.2 := by rw [← hg2]
  have hnpeq : np1 = np2 := by
    have hcn : np1.1 = np2.1 := by rw [← hb1n, ← hb2n, hcol.1]
    have hcp : np1.2 = np2.2 := by rw [← hb1p, ← hb2p, hcol.2]
    exact Prod.ext hcn hcp
  exact hne (parseRemoteKey_inj kv1.1 kv2.1 np1 hnp1 (hnpeq ▸ hnp2))

/-- C1: for a config mapping (unique keys) and any branch remote name,
`getRemoteUrls` succeeds and the remote entries it extracts from the
`remote.<name>.url` / `remote.<name>.pushurl` keys come out ordered by
the strict spec comparator: branch remote first, then the
`upstream`/`github`/`origin` preference list, then lexicographically by
name, and push url before fetch url for equal names. -/
theorem getRemoteEntries_sorted (config : List (String × String))
    (br : Option String) (hkeys : (config.map Prod.fst).Nodup) :
    ∃ entries, getRemoteEntriesE config br = .ok entries ∧
      entries.Perm (extractRemotes config) ∧
      List.Pairwise (fun r1 r2 => specBefore br r1 r2 = true) entries := by
  have hpairs := extractRemotes_pairwise config hkeys
  have hkne : List.Pairwise (fun a b => remoteKey br a ≠ remoteKey br b)
      (extractRemotes config) :=
    hpairs.imp (fun hab he => hab ((remoteKey_eq_iff br _ _).1 he))
  obtain ⟨s, hs, hperm, hsort⟩ := insertionSortE_ok br _ hkne
  exact ⟨s, hs, hperm,
    hsort.imp (fun hlt => (specBefore_iff_key br _ _).2 hlt)⟩

/-- Witness for C1: a concrete config with `origin`, `upstream` and a
push url entry has unique keys, so the sorted entry list exists. -/
theorem getRemoteEntries_sorted_witness :
    ∃ entries, getRemoteEntriesE
        [("remote.origin.url", "u1"), ("remote.upstream.url", "u2"),
         ("remote.a.pushurl", "u3")] none = .ok entries ∧
      entries.Perm (extractRemotes
        [("remote.origin.url", "u1"), ("remote.upstream.url", "u2"),
         ("remote.a.pushurl", "u3")]) ∧
      List.Pairwise (fun r1 r2 => specBefore none r1 r2 = true) entries :=
  getRemoteEntries_sorted _ none (by decide)

/-- C7: no two distinct config keys can produce the same
`(name, isPush)` pair (the remote-url key decomposition is injective),
so for every config mapping with unique keys the extraction sort
succeeds and the duplicate-config error branch is unreachable; and
whenever the extracted entries do collide on a `(name, isPush)` pair,
the sort raises the duplicate-config error instead of silently keeping
one entry. -/
theorem remoteUrl_duplicate_handling :
    (∀ (k1 k2 : String) (np : String × Bool),
      parseRemoteKey k1 = some np → parseRemoteKey k2 = some np →
      k1 = k2) ∧
    (∀ (config : List (String × String)) (br : Option String),
      (config.map Prod.fst).Nodup →
      ∃ entries, getRemoteEntriesE config br = .ok entries) ∧
    (∀ (entries : List RemoteEntry) (br : Option String),
      ¬ List.Pairwise (fun r1 r2 =>
        ¬(r1.name = r2.name ∧ r1.isPush = r2.isPush)) entries →
      ∃ r, insertionSortE (remoteCompareE br) entries
        = .error (dupConfigError r)) := by
  refine ⟨parseRemoteKey_inj, fun config br h => ?_, fun entries br h => ?_⟩
  · have hpairs := extractRemotes_pairwise config h
    have hkne : List.Pairwise (fun a b => remoteKey br a ≠ remoteKey br b)
        (extractRemotes config) :=
      hpairs.imp (fun hab he => hab ((remoteKey_eq_iff br _ _).1 he))
    obtain ⟨s, hs, _, _⟩ := insertionSortE_ok br _ hkne
    exact ⟨s, hs⟩
  · apply insertionSortE_error_of_dup
    intro hp
    exact h (hp.imp (fun hne he => hne ((remoteKey_eq_iff br _ _).2 he)))

/-- Witness for C7: two entries that collide on `(name, isPush)` make
the sort raise the duplicate-config error. -/
theorem remoteUrl_duplicate_handling_witness :
    ∃ r, insertionSortE (remoteCompareE none)
        [⟨"a", false, "u1"⟩, ⟨"a", false, "u2"⟩]
      = .error (dupConfigError r) :=
  remoteUrl_duplicate_handling.2.2 _ none (by decide)
